import Mathlib

/-
Verification of the adaptive interval-partitioning collection engine of
Scripts/cf_waf_collector.py (class CloudflareCollector).

Shallow embedding conventions:
* Timestamps and durations are rationals (seconds).  The Python code keeps
  datetimes and float second counts; on the dyadic values produced by the
  binary search (integers repeatedly halved, at most 12 times, magnitudes
  far below 2^52) IEEE double arithmetic is exact, so rational arithmetic
  is a faithful model.
* The external GraphQL service is a parameter: a truncation oracle
  `orc : QQ -> QQ -> Bool` mapping a queried window `(start, end)` to the
  truncation flag the service would report, and, for the query client, a
  per-attempt outcome environment.
* Python `while` loops that depend on the oracle are translated with an
  explicit fuel parameter returning `Option`; `none` models
  non-termination.  Adequate fuel is established by theorem.
-/

namespace CFWAF

/-- Mirror of the `Config` fields consumed by the collection engine
(Scripts/cf_waf_collector.py, class `Config`).  Time quantities are in
seconds. -/
structure Config where
  TARGET_RULE_ID : String
  ENABLE_RULE_ID_FILTER : Bool
  FILTER_COUNTRIES : List String
  ENABLE_COUNTRY_FILTER : Bool
  FILTER_ACTIONS : List String
  EXCLUDE_ALLOW_ACTIONS : Bool
  API_LIMIT : Nat
  REQUEST_RETRY_COUNT : Nat
  MIN_WINDOW_SECONDS : ℚ
  MAX_WINDOW_SECONDS : ℚ
  BINARY_SEARCH_MAX_ITERATIONS : Nat
  BINARY_SEARCH_PRECISION_SECONDS : ℚ
  deriving DecidableEq

/-- The literal values of the source's `Config` class. -/
def defaultConfig : Config where
  TARGET_RULE_ID := ""
  ENABLE_RULE_ID_FILTER := false
  FILTER_COUNTRIES := ["CN", "HK"]
  ENABLE_COUNTRY_FILTER := false
  FILTER_ACTIONS := []
  EXCLUDE_ALLOW_ACTIONS := false
  API_LIMIT := 5000
  REQUEST_RETRY_COUNT := 3
  MIN_WINDOW_SECONDS := 60
  MAX_WINDOW_SECONDS := 60
  BINARY_SEARCH_MAX_ITERATIONS := 12
  BINARY_SEARCH_PRECISION_SECONDS := 60

/-- One window of a plan: the dict `{'start': ..., 'end': ..., 'seconds': ...}`
built in `binary_search_optimal_window_seconds`.  `start`/`stop` are the
datetime values (`stop` renders the source's `'end'` key, which is a Lean
keyword); `seconds` the stored duration. -/
structure Window where
  start : ℚ
  stop : ℚ
  seconds : ℚ
  deriving DecidableEq

/-- A truncation oracle: for a probed window `(start, end)` the `is_truncated`
flag that `get_firewall_events_for_window` would report. -/
abbrev TruncOracle := ℚ → ℚ → Bool

/-- The loop body of `find_optimal_seconds` (source lines 496-512),
iterating `iters` more times with bracket `[left, right]` and current best
accepted duration `optimal`. -/
def findOptLoop (cfg : Config) (orc : TruncOracle) (startT : ℚ) :
    Nat → ℚ → ℚ → ℚ → ℚ
  | 0, _, _, optimal => optimal
  | iters + 1, left, right, optimal =>
    if right - left ≤ cfg.BINARY_SEARCH_PRECISION_SECONDS then optimal
    else
      let mid := (left + right) / 2
      if orc startT (startT + mid) then
        findOptLoop cfg orc startT iters left
          (mid - cfg.BINARY_SEARCH_PRECISION_SECONDS) optimal
      else
        findOptLoop cfg orc startT iters
          (mid + cfg.BINARY_SEARCH_PRECISION_SECONDS) right mid

/-- `find_optimal_seconds(start_dt, max_seconds)` (source lines 490-514). -/
def find_optimal_seconds (cfg : Config) (orc : TruncOracle)
    (startT maxSeconds : ℚ) : ℚ :=
  findOptLoop cfg orc startT cfg.BINARY_SEARCH_MAX_ITERATIONS
    cfg.MIN_WINDOW_SECONDS maxSeconds cfg.MIN_WINDOW_SECONDS

/-- Instrumented copy of `findOptLoop` that additionally records every probe
issued, as pairs `(duration, truncated)` in issue order. -/
def findOptLoopT (cfg : Config) (orc : TruncOracle) (startT : ℚ) :
    Nat → ℚ → ℚ → ℚ → ℚ × List (ℚ × Bool)
  | 0, _, _, optimal => (optimal, [])
  | iters + 1, left, right, optimal =>
    if right - left ≤ cfg.BINARY_SEARCH_PRECISION_SECONDS then (optimal, [])
    else
      let mid := (left + right) / 2
      if orc startT (startT + mid) then
        let r := findOptLoopT cfg orc startT iters left
          (mid - cfg.BINARY_SEARCH_PRECISION_SECONDS) optimal
        (r.1, (mid, true) :: r.2)
      else
        let r := findOptLoopT cfg orc startT iters
          (mid + cfg.BINARY_SEARCH_PRECISION_SECONDS) right mid
        (r.1, (mid, false) :: r.2)

/-- The probe trace of `find_optimal_seconds`: the returned duration together
with every probed `(duration, truncated)` pair. -/
def findOptTrace (cfg : Config) (orc : TruncOracle)
    (startT maxSeconds : ℚ) : ℚ × List (ℚ × Bool) :=
  findOptLoopT cfg orc startT cfg.BINARY_SEARCH_MAX_ITERATIONS
    cfg.MIN_WINDOW_SECONDS maxSeconds cfg.MIN_WINDOW_SECONDS

/-- Durations of the probes a trace accepted (probes observed non-truncated),
in issue order. -/
def acceptedOf (probes : List (ℚ × Bool)) : List ℚ :=
  probes.filterMap fun p => if p.2 then none else some p.1

/-- The `while current_dt < hour_end_dt` covering loop of
`binary_search_optimal_window_seconds` (source lines 461-484), with explicit
fuel.  Each round takes the binary-searched optimal duration, clamps the
window end to `hourEnd`, and advances the cursor to the window end. -/
def coverLoop (cfg : Config) (orc : TruncOracle) (hourEnd : ℚ) :
    Nat → ℚ → Option (List Window)
  | 0, _ => none
  | fuel + 1, cur =>
    if cur < hourEnd then
      let remaining := hourEnd - cur
      let opt := find_optimal_seconds cfg orc cur
        (min remaining cfg.MAX_WINDOW_SECONDS)
      let wEnd := min (cur + opt) hourEnd
      (coverLoop cfg orc hourEnd fuel wEnd).map
        (Window.mk cur wEnd opt :: ·)
    else some []

/-- `binary_search_optimal_window_seconds(hour_start_str)` (source lines
419-488), without the cache consultation (modelled separately): clamp the
hour end to the global end, try the whole hour once, and either return the
single-window plan or run the covering loop. -/
def binary_search_optimal_window_seconds (cfg : Config) (orc : TruncOracle)
    (fuel : Nat) (globalEnd hourStart : ℚ) : Option (List Window) :=
  let hourEnd := min (hourStart + 3600) globalEnd
  if orc hourStart hourEnd then
    coverLoop cfg orc hourEnd fuel hourStart
  else
    some [Window.mk hourStart hourEnd 3600]

/-- The `optimal_seconds` value computed for cursor `cur` inside the covering
loop (source lines 464-470): the binary-searched duration for the remaining
time capped at `MAX_WINDOW_SECONDS`. -/
def optAt (cfg : Config) (orc : TruncOracle) (hourEnd cur : ℚ) : ℚ :=
  find_optimal_seconds cfg orc cur (min (hourEnd - cur) cfg.MAX_WINDOW_SECONDS)

/-- The `window_end_dt` value for cursor `cur` (source lines 472-474):
cursor plus optimal duration, clamped to the hour end. -/
def wEndAt (cfg : Config) (orc : TruncOracle) (hourEnd cur : ℚ) : ℚ :=
  min (cur + optAt cfg orc hourEnd cur) hourEnd

/-- Chronological-chain checker: `chainB a b ws = true` iff the intervals in
`ws` are consecutive and nonempty, the first starts at `a`, each interval's
end is the next one's start, and the last ends at `b` — i.e. `ws` partitions
the half-open range `[a, b)` in order, with no gap and no overlap. -/
def chainB (a b : ℚ) : List (ℚ × ℚ) → Bool
  | [] => decide (a = b)
  | w :: rest => decide (w.1 = a) && decide (a < w.2) && chainB w.2 b rest

/-- `current.replace(minute=0, second=0, microsecond=0)` in
`split_time_range_by_hour`: floor a timestamp to its hour boundary. -/
def hourFloor (t : ℚ) : ℚ := 3600 * ⌊t / 3600⌋

/-- The `while current < end_dt` loop of `split_time_range_by_hour` (source
lines 524-530), with explicit fuel: record the current hour start, advance by
one hour, clip the advance at `endT`. -/
def splitLoop (endT : ℚ) : Nat → ℚ → Option (List ℚ)
  | 0, _ => none
  | fuel + 1, cur =>
    if cur < endT then
      let next := min (cur + 3600) endT
      (splitLoop endT fuel next).map (cur :: ·)
    else some []

/-- `split_time_range_by_hour(start_time, end_time)` (source lines 516-532):
the list of base-interval start times, beginning at the start timestamp
floored to its hour. -/
def split_time_range_by_hour (fuel : Nat) (startT endT : ℚ) :
    Option (List ℚ) :=
  splitLoop endT fuel (hourFloor startT)

/-- The `filter` dict built by `build_api_filter` (source lines 273-306).
Optional fields are present iff the corresponding Python branch fires. -/
structure ApiFilter where
  datetime_geq : ℚ
  datetime_leq : ℚ
  ruleId : Option String
  clientCountryName : Option String
  clientCountryName_in : Option (List String)
  action : Option String
  action_in : Option (List String)
  action_neq : Option String
  deriving DecidableEq

/-- `build_api_filter(start_time, end_time)` (source lines 273-306). -/
def build_api_filter (cfg : Config) (startT endT : ℚ) : ApiFilter where
  datetime_geq := startT
  datetime_leq := endT
  ruleId :=
    if cfg.ENABLE_RULE_ID_FILTER ∧ cfg.TARGET_RULE_ID ≠ "" then
      some cfg.TARGET_RULE_ID
    else none
  clientCountryName :=
    if cfg.ENABLE_COUNTRY_FILTER ∧ cfg.FILTER_COUNTRIES.length = 1 then
      cfg.FILTER_COUNTRIES.head?
    else none
  clientCountryName_in :=
    if cfg.ENABLE_COUNTRY_FILTER ∧ 2 ≤ cfg.FILTER_COUNTRIES.length then
      some cfg.FILTER_COUNTRIES
    else none
  action :=
    if cfg.FILTER_ACTIONS.length = 1 then cfg.FILTER_ACTIONS.head? else none
  action_in :=
    if 2 ≤ cfg.FILTER_ACTIONS.length then some cfg.FILTER_ACTIONS else none
  action_neq := if cfg.EXCLUDE_ALLOW_ACTIONS then some "allow" else none

/-- Denotation of the filter's datetime clauses on a record timestamp `t`:
`datetime_geq` demands `geq ≤ t` and `datetime_leq` demands `t ≤ leq` (the
GraphQL field names are their own semantics; both bounds are inclusive). -/
def filterMatchesTime (f : ApiFilter) (t : ℚ) : Prop :=
  f.datetime_geq ≤ t ∧ t ≤ f.datetime_leq

instance (f : ApiFilter) (t : ℚ) : Decidable (filterMatchesTime f t) :=
  inferInstanceAs (Decidable (_ ∧ _))

/-- `filter_key_parts` (source lines 428-432): the rule-id part is appended
whenever `TARGET_RULE_ID` is non-empty (truthy), and the country codes are
appended, in configuration order, when the country filter is active. -/
def filter_key_parts (cfg : Config) : List String :=
  (if cfg.TARGET_RULE_ID ≠ "" then [cfg.TARGET_RULE_ID.take 8] else []) ++
    (if cfg.ENABLE_COUNTRY_FILTER ∧ cfg.FILTER_COUNTRIES ≠ [] then
      cfg.FILTER_COUNTRIES
    else [])

/-- `cache_key` (source line 434): the hour-bucket key (the source's
`strftime('%Y%m%d_%H')` rendering, taken here as an opaque string) joined
with the filter parts by underscores. -/
def cache_key (cfg : Config) (hourKey : String) : String :=
  hourKey ++ "_" ++ String.intercalate "_" (filter_key_parts cfg)

/-- Outcome of one attempt of the retry loop in
`get_firewall_events_for_window` (source lines 349-414), as decided by the
environment (HTTP transport and API).  Constructors map to the source's
branches. -/
inductive AttemptOutcome (ε : Type) where
  /-- status 429: sleep and continue. -/
  | rateLimited
  /-- non-200 status: sleep and continue. -/
  | httpError
  /-- `response.json()` raised: continue. -/
  | jsonError
  /-- API `errors` naming an unsupported field: return `([], 0, False)`. -/
  | unsupportedField
  /-- other API `errors`: continue. -/
  | apiError
  /-- well-formed data payload: return the events. -/
  | success (events : List ε)
  /-- response lacked the expected data shape: return `([], 0, False)`. -/
  | emptyData
  /-- `requests.exceptions.Timeout`: continue. -/
  | timeout
  /-- other `RequestException`: continue. -/
  | requestFailed
  /-- any other exception: continue. -/
  | otherFailure
  deriving DecidableEq

/-- The tuple `(events, count, is_truncated)` returned by
`get_firewall_events_for_window`. -/
structure QueryResult (ε : Type) where
  records : List ε
  count : Nat
  truncated : Bool
  deriving DecidableEq

/-- Outcomes that make the retry loop proceed to the next attempt (transient
failures in the spec's vocabulary). -/
def isTransient {ε : Type} : AttemptOutcome ε → Bool
  | .rateLimited | .httpError | .jsonError | .apiError
  | .timeout | .requestFailed | .otherFailure => true
  | _ => false

/-- Outcomes carrying a well-formed data payload. -/
def isSuccess {ε : Type} : AttemptOutcome ε → Bool
  | .success _ => true
  | _ => false

/-- The `for attempt in range(REQUEST_RETRY_COUNT)` loop of
`get_firewall_events_for_window`, consuming one environment outcome per
attempt.  Returns the query result together with the number of requests
issued (`self.total_requests` is incremented once per attempt, at the top of
the `try` block).  An exhausted list is the post-loop fall-through
`return [], 0, False` (source lines 416-417). -/
def runAttempts {ε : Type} (cfg : Config) :
    List (AttemptOutcome ε) → QueryResult ε × Nat
  | [] => (⟨[], 0, false⟩, 0)
  | o :: rest =>
    match o with
    | .success events =>
      (⟨events, events.length, events.length == cfg.API_LIMIT⟩, 1)
    | .unsupportedField => (⟨[], 0, false⟩, 1)
    | .emptyData => (⟨[], 0, false⟩, 1)
    | _ =>
      let r := runAttempts cfg rest
      (r.1, r.2 + 1)

/-- `get_firewall_events_for_window(start_time, end_time)` (source lines
308-417) for a fixed window, against an environment assigning an outcome to
every attempt index. -/
def get_firewall_events_for_window {ε : Type} (cfg : Config)
    (env : Nat → AttemptOutcome ε) : QueryResult ε × Nat :=
  runAttempts cfg ((List.range cfg.REQUEST_RETRY_COUNT).map env)

/-- The per-window accumulation of `process_single_hour` (source lines
548-559): the events of every window, in window order (`extend` of an empty
list is a no-op, so this is a flatten). -/
def hour_events_of {ε : Type} (windows : List Window)
    (q : Window → List ε) : List ε :=
  (windows.map q).flatten

/-- `process_single_hour(hour_start)` (source lines 534-573).  `body` is the
outcome of the `try` block (lines 537-568): `.ok events` when it returns the
hour's events, `.error ()` when it raises.  The handler increments
`failed_hours` and returns an empty batch. -/
def process_single_hour {ε : Type} (body : Except Unit (List ε))
    (failed : Nat) : List ε × Nat :=
  match body with
  | .ok events => (events, failed)
  | .error _ => ([], failed + 1)

/-- The serial collection loop of `collect_data` (source lines 619-632):
process each base interval in order, extending `all_events` with every
returned batch, starting from no events and zero failed hours. -/
def collect_serial {ε : Type} (bodies : List (Except Unit (List ε))) :
    List ε × Nat :=
  bodies.foldl
    (fun acc b =>
      let r := process_single_hour b acc.2
      (acc.1 ++ r.1, r.2))
    ([], 0)

/-- Phase of one worker thread executing the cache consultation of
`binary_search_optimal_window_seconds` for a single cache key:
`ready` = about to run the `if cache_key in self.hour_cache` test;
`toStore p` = past the miss test, computing / about to store plan `p`
(lines 440-485); `done r` = returned plan `r`. -/
inductive WPhase (π : Type) where
  | ready
  | toStore (p : π)
  | done (r : π)
  deriving DecidableEq

/-- The shared state: the `hour_cache` entry for the key under scrutiny
(`none` = key absent) and the number of times the plan computation has been
started. -/
structure CacheSt (π : Type) where
  cache : Option π
  computeCount : Nat
  deriving DecidableEq

/-- One atomic step of a worker.  From `ready`: a cache hit returns the
cached plan, a miss starts the computation (no lock is taken in the source).
From `toStore`: write the plan into the cache and return it. -/
def stepWorker {π : Type} (p0 : π) (s : CacheSt π) :
    WPhase π → CacheSt π × WPhase π
  | .ready =>
    match s.cache with
    | some p => (s, .done p)
    | none => (⟨s.cache, s.computeCount + 1⟩, .toStore p0)
  | .toStore p => (⟨some p, s.computeCount⟩, .done p)
  | .done r => (s, .done r)

/-- Run a schedule (a list of worker indices); each entry steps that worker
once against the shared state.  Out-of-range indices are skipped. -/
def runSched {π : Type} (p0 : π) :
    List Nat → CacheSt π → List (WPhase π) → CacheSt π × List (WPhase π)
  | [], s, ws => (s, ws)
  | i :: rest, s, ws =>
    match ws[i]? with
    | none => runSched p0 rest s ws
    | some w =>
      let r := stepWorker p0 s w
      runSched p0 rest r.1 (ws.set i r.2)

/-- Invariant of the cache model: every cached plan, every plan being
stored, and every returned plan is the one deterministic plan `p0`. -/
def PlanInv {π : Type} (p0 : π) (s : CacheSt π) (ws : List (WPhase π)) : Prop :=
  (∀ p, s.cache = some p → p = p0) ∧
    ∀ w ∈ ws, (∀ q, w = WPhase.toStore q → q = p0) ∧
      ∀ q, w = WPhase.done q → q = p0

/-- The source configuration with the country filter enabled. -/
def cfgCountriesA : Config :=
  { defaultConfig with ENABLE_COUNTRY_FILTER := true }

/-- Same as `cfgCountriesA` with the two country codes listed in the
opposite order. -/
def cfgCountriesB : Config :=
  { defaultConfig with
      ENABLE_COUNTRY_FILTER := true
      FILTER_COUNTRIES := ["HK", "CN"] }

/-- A configuration agreeing with `cfgCountriesA` on every input that
`cache_key` reads, differing elsewhere. -/
def cfgCountriesC : Config :=
  { defaultConfig with
      ENABLE_COUNTRY_FILTER := true
      EXCLUDE_ALLOW_ACTIONS := true }

/-! ### Lemmas about the binary search `find_optimal_seconds` -/

/-- Unfolding equation for one iteration of `findOptLoop`. -/
theorem findOptLoop_succ (cfg : Config) (orc : TruncOracle) (startT : ℚ)
    (n : Nat) (l r o : ℚ) :
    findOptLoop cfg orc startT (n + 1) l r o =
      if r - l ≤ cfg.BINARY_SEARCH_PRECISION_SECONDS then o
      else if orc startT (startT + (l + r) / 2) then
        findOptLoop cfg orc startT n l
          ((l + r) / 2 - cfg.BINARY_SEARCH_PRECISION_SECONDS) o
      else
        findOptLoop cfg orc startT n
          ((l + r) / 2 + cfg.BINARY_SEARCH_PRECISION_SECONDS) r ((l + r) / 2) :=
  rfl

/-- Unfolding equation for one iteration of `findOptLoopT`. -/
theorem findOptLoopT_succ (cfg : Config) (orc : TruncOracle) (startT : ℚ)
    (n : Nat) (l r o : ℚ) :
    findOptLoopT cfg orc startT (n + 1) l r o =
      if r - l ≤ cfg.BINARY_SEARCH_PRECISION_SECONDS then (o, [])
      else if orc startT (startT + (l + r) / 2) then
        ((findOptLoopT cfg orc startT n l
            ((l + r) / 2 - cfg.BINARY_SEARCH_PRECISION_SECONDS) o).1,
          ((l + r) / 2, true) ::
            (findOptLoopT cfg orc startT n l
              ((l + r) / 2 - cfg.BINARY_SEARCH_PRECISION_SECONDS) o).2)
      else
        ((findOptLoopT cfg orc startT n
            ((l + r) / 2 + cfg.BINARY_SEARCH_PRECISION_SECONDS) r
            ((l + r) / 2)).1,
          ((l + r) / 2, false) ::
            (findOptLoopT cfg orc startT n
              ((l + r) / 2 + cfg.BINARY_SEARCH_PRECISION_SECONDS) r
              ((l + r) / 2)).2) :=
  rfl

theorem acceptedOf_nil : acceptedOf [] = [] := rfl

theorem acceptedOf_cons_true (d : ℚ) (ps : List (ℚ × Bool)) :
    acceptedOf ((d, true) :: ps) = acceptedOf ps := by
  simp [acceptedOf]

theorem acceptedOf_cons_false (d : ℚ) (ps : List (ℚ × Bool)) :
    acceptedOf ((d, false) :: ps) = d :: acceptedOf ps := by
  simp [acceptedOf]

/-- The instrumented loop returns the same duration as the source loop. -/
theorem findOptLoopT_fst (cfg : Config) (orc : TruncOracle) (startT : ℚ) :
    ∀ iters l r o,
      (findOptLoopT cfg orc startT iters l r o).1 =
        findOptLoop cfg orc startT iters l r o := by
  intro iters
  induction iters with
  | zero => intro l r o; rfl
  | succ n ih =>
    intro l r o
    rw [findOptLoopT_succ, findOptLoop_succ]
    by_cases h1 : r - l ≤ cfg.BINARY_SEARCH_PRECISION_SECONDS
    · rw [if_pos h1, if_pos h1]
    · rw [if_neg h1, if_neg h1]
      by_cases h2 : orc startT (startT + (l + r) / 2) = true
      · rw [if_pos h2, if_pos h2]; exact ih _ _ _
      · rw [if_neg h2, if_neg h2]; exact ih _ _ _

/-- The loop never returns less than a value bounding both the bracket's
left end and the current best from below. -/
theorem findOptLoop_ge (cfg : Config) (orc : TruncOracle) (startT : ℚ)
    (hP : 0 ≤ cfg.BINARY_SEARCH_PRECISION_SECONDS) :
    ∀ iters l r o, cfg.MIN_WINDOW_SECONDS ≤ l →
      cfg.MIN_WINDOW_SECONDS ≤ o →
      cfg.MIN_WINDOW_SECONDS ≤ findOptLoop cfg orc startT iters l r o := by
  intro iters
  induction iters with
  | zero => intro l r o _ ho; exact ho
  | succ n ih =>
    intro l r o hl ho
    rw [findOptLoop_succ]
    by_cases h1 : r - l ≤ cfg.BINARY_SEARCH_PRECISION_SECONDS
    · rw [if_pos h1]; exact ho
    · rw [if_neg h1]
      have hlr : l < r := by
        have := not_le.mp h1
        linarith
      have hmid : l ≤ (l + r) / 2 := by linarith
      by_cases h2 : orc startT (startT + (l + r) / 2) = true
      · rw [if_pos h2]; exact ih _ _ _ hl ho
      · rw [if_neg h2]; exact ih _ _ _ (by linarith) (by linarith)

/-- `find_optimal_seconds` never returns less than `MIN_WINDOW_SECONDS`. -/
theorem find_optimal_seconds_ge (cfg : Config) (orc : TruncOracle)
    (startT maxSeconds : ℚ) (hP : 0 ≤ cfg.BINARY_SEARCH_PRECISION_SECONDS) :
    cfg.MIN_WINDOW_SECONDS ≤ find_optimal_seconds cfg orc startT maxSeconds :=
  findOptLoop_ge cfg orc startT hP _ _ _ _ (le_refl _) (le_refl _)

/-- At most one probe is issued per iteration. -/
theorem findOptLoopT_length (cfg : Config) (orc : TruncOracle) (startT : ℚ) :
    ∀ iters l r o,
      (findOptLoopT cfg orc startT iters l r o).2.length ≤ iters := by
  intro iters
  induction iters with
  | zero => intro l r o; exact Nat.le_refl 0
  | succ n ih =>
    intro l r o
    rw [findOptLoopT_succ]
    by_cases h1 : r - l ≤ cfg.BINARY_SEARCH_PRECISION_SECONDS
    · rw [if_pos h1]; exact Nat.zero_le _
    · rw [if_neg h1]
      by_cases h2 : orc startT (startT + (l + r) / 2) = true
      · rw [if_pos h2]
        exact Nat.succ_le_succ (ih _ _ _)
      · rw [if_neg h2]
        exact Nat.succ_le_succ (ih _ _ _)

/-- The returned duration is the last accepted probe, or the incoming
`optimal` when no probe was accepted. -/
theorem findOptLoopT_last_accepted (cfg : Config) (orc : TruncOracle)
    (startT : ℚ) :
    ∀ iters l r o,
      (findOptLoopT cfg orc startT iters l r o).1 =
        (acceptedOf (findOptLoopT cfg orc startT iters l r o).2).getLastD o := by
  intro iters
  induction iters with
  | zero => intro l r o; rfl
  | succ n ih =>
    intro l r o
    rw [findOptLoopT_succ]
    by_cases h1 : r - l ≤ cfg.BINARY_SEARCH_PRECISION_SECONDS
    · rw [if_pos h1]; rfl
    · rw [if_neg h1]
      by_cases h2 : orc startT (startT + (l + r) / 2) = true
      · rw [if_pos h2]
        show _ = (acceptedOf (((l + r) / 2, true) :: _)).getLastD o
        rw [acceptedOf_cons_true]
        exact ih _ _ _
      · rw [if_neg h2]
        show _ = (acceptedOf (((l + r) / 2, false) :: _)).getLastD o
        rw [acceptedOf_cons_false, List.getLastD_cons]
        exact ih _ _ _

/-- Strict upper bound: if the incoming best and the bracket's right end
stay below a bound, so does the returned duration. -/
theorem findOptLoopT_lt (cfg : Config) (orc : TruncOracle) (startT : ℚ)
    (hP : 0 ≤ cfg.BINARY_SEARCH_PRECISION_SECONDS) :
    ∀ iters l r o (b : ℚ), o < b → r ≤ b →
      (findOptLoopT cfg orc startT iters l r o).1 < b := by
  intro iters
  induction iters with
  | zero => intro l r o b ho _; exact ho
  | succ n ih =>
    intro l r o b ho hr
    rw [findOptLoopT_succ]
    by_cases h1 : r - l ≤ cfg.BINARY_SEARCH_PRECISION_SECONDS
    · rw [if_pos h1]; exact ho
    · rw [if_neg h1]
      have hlr : l < r := by
        have := not_le.mp h1
        linarith
      have hmid : (l + r) / 2 < r := by linarith
      by_cases h2 : orc startT (startT + (l + r) / 2) = true
      · rw [if_pos h2]
        exact ih _ _ _ _ ho (by linarith)
      · rw [if_neg h2]
        exact ih _ _ _ _ (by linarith) hr

/-- No duration that a probe observed truncated is ever returned. -/
theorem findOptLoopT_truncated_ne (cfg : Config) (orc : TruncOracle)
    (startT : ℚ) (hP : 0 ≤ cfg.BINARY_SEARCH_PRECISION_SECONDS) :
    ∀ iters l r o, o ≤ l →
      ∀ d, (d, true) ∈ (findOptLoopT cfg orc startT iters l r o).2 →
        d ≠ (findOptLoopT cfg orc startT iters l r o).1 := by
  intro iters
  induction iters with
  | zero =>
    intro l r o _ d hd
    exact absurd hd (List.not_mem_nil _)
  | succ n ih =>
    intro l r o hol d hd
    rw [findOptLoopT_succ] at hd ⊢
    by_cases h1 : r - l ≤ cfg.BINARY_SEARCH_PRECISION_SECONDS
    · rw [if_pos h1] at hd
      exact absurd hd (List.not_mem_nil _)
    · rw [if_neg h1] at hd ⊢
      have hlr : l < r := by
        have := not_le.mp h1
        linarith
      have hmid1 : l < (l + r) / 2 := by linarith
      by_cases h2 : orc startT (startT + (l + r) / 2) = true
      · rw [if_pos h2] at hd ⊢
        rcases List.mem_cons.mp hd with hd | hd
        · have hd1 : d = (l + r) / 2 := congrArg Prod.fst hd
          subst hd1
          have hlt := findOptLoopT_lt cfg orc startT hP n l
            ((l + r) / 2 - cfg.BINARY_SEARCH_PRECISION_SECONDS) o ((l + r) / 2)
            (by linarith) (by linarith)
          exact (ne_of_lt hlt).symm
        · exact ih _ _ _ hol d hd
      · rw [if_neg h2] at hd ⊢
        rcases List.mem_cons.mp hd with hd | hd
        · have : (true : Bool) = false := congrArg Prod.snd hd
          exact absurd this (by simp)
        · exact ih _ _ _ (by linarith) d hd

/-- A bracket already within precision issues no probe and keeps the
incoming best. -/
theorem findOptLoopT_closed (cfg : Config) (orc : TruncOracle) (startT : ℚ)
    (iters : Nat) (l r o : ℚ)
    (h : r - l ≤ cfg.BINARY_SEARCH_PRECISION_SECONDS) :
    findOptLoopT cfg orc startT iters l r o = (o, []) := by
  cases iters with
  | zero => rfl
  | succ n => rw [findOptLoopT_succ, if_pos h]

/-! ### Lemmas about the covering loop and the hour splitter -/

/-- Unfolding equation for one round of the covering loop. -/
theorem coverLoop_succ (cfg : Config) (orc : TruncOracle) (hourEnd : ℚ)
    (fuel : Nat) (cur : ℚ) :
    coverLoop cfg orc hourEnd (fuel + 1) cur =
      if cur < hourEnd then
        (coverLoop cfg orc hourEnd fuel (wEndAt cfg orc hourEnd cur)).map
          (Window.mk cur (wEndAt cfg orc hourEnd cur)
            (optAt cfg orc hourEnd cur) :: ·)
      else some [] :=
  rfl

/-- Any plan the covering loop returns is a chronological partition of
`[cur, hourEnd)`. -/
theorem coverLoop_chain (cfg : Config) (orc : TruncOracle) (hourEnd : ℚ)
    (hmin : 0 < cfg.MIN_WINDOW_SECONDS)
    (hP : 0 ≤ cfg.BINARY_SEARCH_PRECISION_SECONDS) :
    ∀ fuel cur ws, cur ≤ hourEnd →
      coverLoop cfg orc hourEnd fuel cur = some ws →
      chainB cur hourEnd (ws.map fun w => (w.start, w.stop)) = true := by
  intro fuel
  induction fuel with
  | zero => intro cur ws _ h; exact absurd h (by simp [coverLoop])
  | succ n ih =>
    intro cur ws hle h
    rw [coverLoop_succ] at h
    by_cases hc : cur < hourEnd
    · rw [if_pos hc] at h
      rcases Option.map_eq_some'.mp h with ⟨rest, hrest, hws⟩
      subst hws
      have hopt : cfg.MIN_WINDOW_SECONDS ≤ optAt cfg orc hourEnd cur :=
        find_optimal_seconds_ge cfg orc cur _ hP
      have hw : cur < wEndAt cfg orc hourEnd cur := by
        simp only [wEndAt]
        exact lt_min (by linarith) hc
      have hchain := ih _ rest (min_le_right _ _) hrest
      simp only [List.map_cons, chainB, Bool.and_eq_true, decide_eq_true_eq]
      exact ⟨⟨trivial, hw⟩, hchain⟩
    · rw [if_neg hc] at h
      obtain rfl : ([] : List Window) = ws := Option.some.inj h
      have hcur : cur = hourEnd := le_antisymm hle (not_lt.mp hc)
      simp [chainB, hcur]

/-- Termination with linear fuel: if `MIN_WINDOW_SECONDS` is positive then
`n + 1` rounds suffice to cover `MIN_WINDOW_SECONDS * n` seconds, and every
produced window advances the cursor by at least the minimum of
`MIN_WINDOW_SECONDS` and the remaining time. -/
theorem coverLoop_total (cfg : Config) (orc : TruncOracle) (hourEnd : ℚ)
    (hmin : 0 < cfg.MIN_WINDOW_SECONDS)
    (hP : 0 ≤ cfg.BINARY_SEARCH_PRECISION_SECONDS) :
    ∀ (n : Nat) (cur : ℚ), hourEnd - cur ≤ cfg.MIN_WINDOW_SECONDS * n →
      ∃ ws, coverLoop cfg orc hourEnd (n + 1) cur = some ws ∧
        ∀ w ∈ ws,
          min cfg.MIN_WINDOW_SECONDS (hourEnd - w.start) ≤ w.stop - w.start := by
  intro n
  induction n with
  | zero =>
    intro cur hcur
    refine ⟨[], ?_, by simp⟩
    rw [coverLoop_succ,
      if_neg (not_lt.mpr (by push_cast at hcur; linarith))]
  | succ n ih =>
    intro cur hcur
    by_cases hc : cur < hourEnd
    · have hopt : cfg.MIN_WINDOW_SECONDS ≤ optAt cfg orc hourEnd cur :=
        find_optimal_seconds_ge cfg orc cur _ hP
      have hnext :
          hourEnd - wEndAt cfg orc hourEnd cur ≤ cfg.MIN_WINDOW_SECONDS * n := by
        rcases le_total (cur + optAt cfg orc hourEnd cur) hourEnd with hle | hle
        · simp only [wEndAt, min_eq_left hle]
          push_cast at hcur
          linarith
        · simp only [wEndAt, min_eq_right hle]
          have h0 : (0 : ℚ) ≤ cfg.MIN_WINDOW_SECONDS * n := by positivity
          linarith
      obtain ⟨rest, hrest, hprop⟩ := ih _ hnext
      refine ⟨Window.mk cur (wEndAt cfg orc hourEnd cur)
        (optAt cfg orc hourEnd cur) :: rest, ?_, ?_⟩
      · rw [coverLoop_succ, if_pos hc, hrest]; rfl
      · intro w hw
        rcases List.mem_cons.mp hw with rfl | hw
        · show min cfg.MIN_WINDOW_SECONDS (hourEnd - cur) ≤
            wEndAt cfg orc hourEnd cur - cur
          rcases le_total (cur + optAt cfg orc hourEnd cur) hourEnd with hle | hle
          · simp only [wEndAt, min_eq_left hle]
            have := min_le_left cfg.MIN_WINDOW_SECONDS (hourEnd - cur)
            linarith
          · simp only [wEndAt, min_eq_right hle]
            have := min_le_right cfg.MIN_WINDOW_SECONDS (hourEnd - cur)
            linarith
        · exact hprop w hw
    · refine ⟨[], ?_, by simp⟩
      rw [coverLoop_succ, if_neg hc]

/-- Unfolding equation for one round of the hour-splitting loop. -/
theorem splitLoop_succ (endT : ℚ) (fuel : Nat) (cur : ℚ) :
    splitLoop endT (fuel + 1) cur =
      if cur < endT then
        (splitLoop endT fuel (min (cur + 3600) endT)).map (cur :: ·)
      else some [] :=
  rfl

/-- Once the cursor reaches the end, the splitter returns no further
starts. -/
theorem splitLoop_stop (endT : ℚ) (fuel : Nat) (cur : ℚ) (rs : List ℚ)
    (h : splitLoop endT fuel cur = some rs) (hnot : ¬cur < endT) : rs = [] := by
  cases fuel with
  | zero => simp [splitLoop] at h
  | succ n =>
    rw [splitLoop_succ, if_neg hnot] at h
    exact (Option.some.inj h).symm

/-- The base intervals induced by the returned hour starts partition
`[cur, endT)` chronologically. -/
theorem splitLoop_chain (endT : ℚ) :
    ∀ fuel cur rs, cur ≤ endT → splitLoop endT fuel cur = some rs →
      chainB cur endT (rs.map fun r => (r, min (r + 3600) endT)) = true := by
  intro fuel
  induction fuel with
  | zero => intro cur rs _ h; simp [splitLoop] at h
  | succ n ih =>
    intro cur rs hle h
    rw [splitLoop_succ] at h
    by_cases hc : cur < endT
    · rw [if_pos hc] at h
      rcases Option.map_eq_some'.mp h with ⟨rest, hrest, hws⟩
      subst hws
      have hchain := ih _ rest (min_le_right _ _) hrest
      simp only [List.map_cons, chainB, Bool.and_eq_true, decide_eq_true_eq]
      exact ⟨⟨trivial, lt_min (by linarith) hc⟩, hchain⟩
    · rw [if_neg hc] at h
      obtain rfl : ([] : List ℚ) = rs := Option.some.inj h
      have hcur : cur = endT := le_antisymm hle (not_lt.mp hc)
      simp [chainB, hcur]

/-- Every start the splitter returns is aligned to an hour boundary,
provided the initial cursor is. -/
theorem splitLoop_aligned (endT : ℚ) :
    ∀ fuel cur rs, (∃ k : ℤ, cur = 3600 * (k : ℚ)) →
      splitLoop endT fuel cur = some rs →
      ∀ r ∈ rs, ∃ k : ℤ, r = 3600 * (k : ℚ) := by
  intro fuel
  induction fuel with
  | zero => intro cur rs _ h; simp [splitLoop] at h
  | succ n ih =>
    intro cur rs hal h
    rw [splitLoop_succ] at h
    by_cases hc : cur < endT
    · rw [if_pos hc] at h
      rcases Option.map_eq_some'.mp h with ⟨rest, hrest, hws⟩
      subst hws
      intro r hr
      rcases List.mem_cons.mp hr with rfl | hr
      · exact hal
      · rcases le_or_lt (cur + 3600) endT with hle | hlt
        · rw [min_eq_left hle] at hrest
          obtain ⟨k, hk⟩ := hal
          refine ih _ rest ⟨k + 1, ?_⟩ hrest r hr
          rw [hk]
          push_cast
          ring
        · rw [min_eq_right hlt.le] at hrest
          have hnil := splitLoop_stop endT n endT rest hrest (lt_irrefl endT)
          subst hnil
          exact absurd hr (List.not_mem_nil r)
    · rw [if_neg hc] at h
      obtain rfl : ([] : List ℚ) = rs := Option.some.inj h
      intro r hr
      exact absurd hr (List.not_mem_nil r)

/-- Flooring to the hour gives an hour-aligned timestamp not later than the
input. -/
theorem hourFloor_le (t : ℚ) : hourFloor t ≤ t := by
  have h := Int.floor_le (t / 3600)
  have h2 : (3600 : ℚ) * ⌊t / 3600⌋ ≤ 3600 * (t / 3600) := by
    have : (0 : ℚ) < 3600 := by norm_num
    exact mul_le_mul_of_nonneg_left h (by norm_num)
  calc hourFloor t = 3600 * ⌊t / 3600⌋ := rfl
    _ ≤ 3600 * (t / 3600) := h2
    _ = t := by ring

/-! ### Lemmas about the query client's retry loop -/

/-- Every result of the retry loop reports a count equal to the length of
its record list. -/
theorem runAttempts_count (ε : Type) (cfg : Config) :
    ∀ attempts : List (AttemptOutcome ε),
      ((runAttempts cfg attempts).1).count =
        ((runAttempts cfg attempts).1).records.length := by
  intro attempts
  induction attempts with
  | nil => rfl
  | cons o rest ih =>
    cases o with
    | success events => rfl
    | unsupportedField => rfl
    | emptyData => rfl
    | rateLimited => exact ih
    | httpError => exact ih
    | jsonError => exact ih
    | apiError => exact ih
    | timeout => exact ih
    | requestFailed => exact ih
    | otherFailure => exact ih

/-- If no attempt delivers a data payload, the loop returns exactly
`([], 0, False)`. -/
theorem runAttempts_no_success (ε : Type) (cfg : Config) :
    ∀ attempts : List (AttemptOutcome ε),
      (∀ o ∈ attempts, isSuccess o = false) →
      (runAttempts cfg attempts).1 = ⟨[], 0, false⟩ := by
  intro attempts
  induction attempts with
  | nil => intro _; rfl
  | cons o rest ih =>
    intro h
    have hrest : ∀ o ∈ rest, isSuccess o = false := fun o ho =>
      h o (List.mem_cons_of_mem _ ho)
    cases o with
    | success events =>
      exact absurd (h _ (List.mem_cons_self _ _)) (by simp [isSuccess])
    | unsupportedField => rfl
    | emptyData => rfl
    | rateLimited => exact ih hrest
    | httpError => exact ih hrest
    | jsonError => exact ih hrest
    | apiError => exact ih hrest
    | timeout => exact ih hrest
    | requestFailed => exact ih hrest
    | otherFailure => exact ih hrest

/-- If every attempt fails transiently, the loop returns `([], 0, False)`
after issuing one request per attempt. -/
theorem runAttempts_transient (ε : Type) (cfg : Config) :
    ∀ attempts : List (AttemptOutcome ε),
      (∀ o ∈ attempts, isTransient o = true) →
      runAttempts cfg attempts = (⟨[], 0, false⟩, attempts.length) := by
  intro attempts
  induction attempts with
  | nil => intro _; rfl
  | cons o rest ih =>
    intro h
    have hrest : ∀ o ∈ rest, isTransient o = true := fun o ho =>
      h o (List.mem_cons_of_mem _ ho)
    have hih := ih hrest
    cases o with
    | success events =>
      exact absurd (h _ (List.mem_cons_self _ _)) (by simp [isTransient])
    | unsupportedField =>
      exact absurd (h _ (List.mem_cons_self _ _)) (by simp [isTransient])
    | emptyData =>
      exact absurd (h _ (List.mem_cons_self _ _)) (by simp [isTransient])
    | rateLimited => simp [runAttempts, hih]
    | httpError => simp [runAttempts, hih]
    | jsonError => simp [runAttempts, hih]
    | apiError => simp [runAttempts, hih]
    | timeout => simp [runAttempts, hih]
    | requestFailed => simp [runAttempts, hih]
    | otherFailure => simp [runAttempts, hih]

/-! ### Lemmas about the serial orchestration loop -/

/-- Folding the per-hour step over exception-free bodies appends their
events and leaves the failure counter alone. -/
theorem collect_foldl_ok (ε : Type) :
    ∀ (post : List (List ε)) (acc : List ε × Nat),
      List.foldl
        (fun acc b =>
          let r := process_single_hour b acc.2
          (acc.1 ++ r.1, r.2))
        acc (post.map Except.ok) = (acc.1 ++ post.flatten, acc.2) := by
  intro post
  induction post with
  | nil => intro acc; simp
  | cons x rest ih =>
    intro acc
    rw [List.map_cons, List.foldl_cons]
    show List.foldl _ (acc.1 ++ x, acc.2) (List.map Except.ok rest) = _
    rw [ih]
    simp [List.append_assoc]

/-! ### Lemmas about the cache concurrency model -/

/-- One worker step preserves the plan invariant. -/
theorem stepWorker_inv {π : Type} (p0 : π) (s : CacheSt π)
    (ws : List (WPhase π)) (i : Nat) (w : WPhase π)
    (hw : ws[i]? = some w) (hinv : PlanInv p0 s ws) :
    PlanInv p0 (stepWorker p0 s w).1 (ws.set i (stepWorker p0 s w).2) := by
  have hwmem : w ∈ ws := List.getElem?_mem hw
  have hwprop := hinv.2 w hwmem
  have hok : ∀ (s' : CacheSt π) (w' : WPhase π),
      (∀ p, s'.cache = some p → p = p0) →
      (∀ q, w' = WPhase.toStore q → q = p0) →
      (∀ q, w' = WPhase.done q → q = p0) →
      PlanInv p0 s' (ws.set i w') := by
    intro s' w' h1 h2 h3
    refine ⟨h1, ?_⟩
    intro x hx
    rcases List.mem_or_eq_of_mem_set hx with hx' | hx'
    · exact hinv.2 x hx'
    · subst hx'
      exact ⟨h2, h3⟩
  cases w with
  | ready =>
    cases hcache : s.cache with
    | some p =>
      have hp : p = p0 := hinv.1 p hcache
      have hstep : stepWorker p0 s WPhase.ready = (s, WPhase.done p) := by
        simp [stepWorker, hcache]
      rw [hstep]
      refine hok s (WPhase.done p) hinv.1 ?_ ?_
      · intro q hq
        cases hq
      · intro q hq
        cases hq
        exact hp
    | none =>
      have hstep : stepWorker p0 s WPhase.ready =
          (⟨s.cache, s.computeCount + 1⟩, WPhase.toStore p0) := by
        simp [stepWorker, hcache]
      rw [hstep]
      refine hok _ (WPhase.toStore p0) ?_ ?_ ?_
      · intro q hq
        rw [hcache] at hq
        cases hq
      · intro q hq
        cases hq
        rfl
      · intro q hq
        cases hq
  | toStore p =>
    have hp : p = p0 := hwprop.1 p rfl
    have hstep : stepWorker p0 s (WPhase.toStore p) =
        (⟨some p, s.computeCount⟩, WPhase.done p) := rfl
    rw [hstep]
    refine hok _ (WPhase.done p) ?_ ?_ ?_
    · intro q hq
      have : p = q := Option.some.inj hq
      rw [← this]
      exact hp
    · intro q hq
      cases hq
    · intro q hq
      cases hq
      exact hp
  | done r =>
    have hr : r = p0 := hwprop.2 r rfl
    have hstep : stepWorker p0 s (WPhase.done r) = (s, WPhase.done r) := rfl
    rw [hstep]
    refine hok s (WPhase.done r) hinv.1 ?_ ?_
    · intro q hq
      cases hq
    · intro q hq
      cases hq
      exact hr

/-- Running any schedule preserves the plan invariant. -/
theorem runSched_inv {π : Type} (p0 : π) :
    ∀ (sched : List Nat) (s : CacheSt π) (ws : List (WPhase π)),
      PlanInv p0 s ws →
      PlanInv p0 (runSched p0 sched s ws).1 (runSched p0 sched s ws).2 := by
  intro sched
  induction sched with
  | nil => intro s ws h; exact h
  | cons i rest ih =>
    intro s ws h
    show PlanInv p0 (runSched p0 (i :: rest) s ws).1 _
    rw [runSched]
    cases hw : ws[i]? with
    | none => exact ih s ws h
    | some w => exact ih _ _ (stepWorker_inv p0 s ws i w hw h)

/-! ### Concrete evaluations used by witnesses and counterexamples -/

/-- Evaluation: splitting `[1800, 3600)` yields the single floored hour
start 0. -/
theorem split_eval : split_time_range_by_hour 3 1800 3600 = some [0] := by
  have hfl : hourFloor 1800 = 0 := by norm_num [hourFloor]
  show splitLoop 3600 3 (hourFloor 1800) = some [0]
  rw [hfl, show (3 : ℕ) = 2 + 1 from rfl, splitLoop_succ,
    if_pos (by norm_num)]
  have hmin : min ((0 : ℚ) + 3600) 3600 = 3600 := by norm_num
  rw [hmin, show (2 : ℕ) = 1 + 1 from rfl, splitLoop_succ,
    if_neg (lt_irrefl 3600)]
  rfl

/-- Evaluation: with the source configuration, an always-truncating oracle,
start 0 and maximum duration 181, the binary search probes only the midpoint
`241/2` (truncated) and returns the untested fallback 60. -/
theorem findOptTrace_eval :
    findOptTrace defaultConfig (fun _ _ => true) 0 181 =
      (60, [(241 / 2, true)]) := by
  show findOptLoopT defaultConfig (fun _ _ => true) 0 12 60 181 60 = _
  rw [show (12 : ℕ) = 11 + 1 from rfl, findOptLoopT_succ,
    if_neg (by norm_num [defaultConfig]), if_pos rfl]
  rw [findOptLoopT_closed defaultConfig (fun _ _ => true) 0 11 60 _ 60
    (by norm_num [defaultConfig])]
  norm_num

/-! ### Claim theorems -/

/-- C1: for every base interval and filter signature (represented by the
truncation oracle the filters induce), any WindowPlan returned by
`binary_search_optimal_window_seconds` partitions the base interval: the
windows are chronological, the first window starts at the hour start, each
window's end equals the next window's start, and the last window ends at the
hour end clamped to the global end — no gaps and no overlaps. -/
theorem window_plan_is_partition (cfg : Config) (orc : TruncOracle)
    (fuel : Nat) (globalEnd hourStart : ℚ) (ws : List Window)
    (hmin : 0 < cfg.MIN_WINDOW_SECONDS)
    (hP : 0 ≤ cfg.BINARY_SEARCH_PRECISION_SECONDS)
    (hlt : hourStart < globalEnd)
    (h : binary_search_optimal_window_seconds cfg orc fuel globalEnd
        hourStart = some ws) :
    chainB hourStart (min (hourStart + 3600) globalEnd)
      (ws.map fun w => (w.start, w.stop)) = true := by
  have hEnd : hourStart < min (hourStart + 3600) globalEnd :=
    lt_min (by linarith) hlt
  simp only [binary_search_optimal_window_seconds] at h
  by_cases horc : orc hourStart (min (hourStart + 3600) globalEnd) = true
  · rw [if_pos horc] at h
    exact coverLoop_chain cfg orc _ hmin hP fuel hourStart ws hEnd.le h
  · rw [if_neg horc] at h
    obtain rfl : [Window.mk hourStart (min (hourStart + 3600) globalEnd) 3600]
        = ws := Option.some.inj h
    simp [chainB, hEnd]

/-- C1 witness: the partition theorem applied to the source configuration,
a never-truncating oracle, and the base interval starting at 0 with global
end 120, whose plan is the single clamped window. -/
theorem window_plan_is_partition_witness :
    chainB 0 (min (0 + 3600) 120)
      ([Window.mk 0 (min (0 + 3600) 120) 3600].map
        fun w => (w.start, w.stop)) = true :=
  window_plan_is_partition defaultConfig (fun _ _ => false) 1 120 0
    [Window.mk 0 (min (0 + 3600) 120) 3600]
    (by decide) (by decide) (by decide) rfl

/-- C2 counterexample: with two workers both requesting the same absent
cache key, the interleaving that runs both workers' miss tests before either
stores (schedule `[0, 1, 0, 1]`) makes the plan computation start twice,
although both callers complete — the "computed exactly once" part of the
claim is false for the lock-free source cache. -/
theorem cache_single_flight_cex :
    (runSched (42 : Nat) [0, 1, 0, 1] ⟨none, 0⟩
        [WPhase.ready, WPhase.ready]).2 =
      [WPhase.done 42, WPhase.done 42] ∧
    (runSched (42 : Nat) [0, 1, 0, 1] ⟨none, 0⟩
        [WPhase.ready, WPhase.ready]).1.computeCount = 2 := by
  decide

/-- C2 (amended): under any interleaving, every worker that completes
receives the identical (deterministic) plan, but the computation is executed
exactly once only when the requests do not interleave — e.g. under the
sequential schedule `[0, 0, 1]`; under interleaving it can run more than
once (see the counterexample). -/
theorem cache_all_callers_identical_plan :
    (∀ (π : Type) (p0 : π) (sched : List Nat) (n : Nat) (r : π),
        WPhase.done r ∈
          (runSched p0 sched ⟨none, 0⟩ (List.replicate n WPhase.ready)).2 →
        r = p0) ∧
    runSched (42 : Nat) [0, 0, 1] ⟨none, 0⟩ [WPhase.ready, WPhase.ready] =
      (⟨some 42, 1⟩, [WPhase.done 42, WPhase.done 42]) := by
  constructor
  · intro π p0 sched n r hr
    have hinv0 : PlanInv p0 ⟨none, 0⟩ (List.replicate n WPhase.ready) := by
      constructor
      · intro p hp
        simp at hp
      · intro w hw
        have hww : w = WPhase.ready := List.eq_of_mem_replicate hw
        subst hww
        exact ⟨fun q hq => WPhase.noConfusion hq,
          fun q hq => WPhase.noConfusion hq⟩
    have hinv := runSched_inv p0 sched ⟨none, 0⟩ _ hinv0
    exact (hinv.2 _ hr).2 r rfl
  · decide

/-- C2 witness: the identical-plan part applied to the racing schedule of
the counterexample; worker 1's returned plan equals the computed plan 37. -/
theorem cache_all_callers_identical_plan_witness : (37 : Nat) = 37 :=
  cache_all_callers_identical_plan.1 Nat 37 [0, 1, 0, 1] 2 37 (by decide)

/-- C3 counterexample: with the source configuration, an oracle that
truncates every probe, start 0 and maximum duration 181, the binary search
issues exactly one probe, at duration `241/2`, observes it truncated, and
returns 60 — a duration no probe ever tested.  The claim's "never adopts an
untested duration" and "returns the last duration accepted as non-truncated"
are false on this input: the fallback `MIN_WINDOW_SECONDS` is adopted
untested. -/
theorem find_optimal_adopts_untested_cex :
    findOptTrace defaultConfig (fun _ _ => true) 0 181 =
      (60, [(241 / 2, true)]) ∧
    find_optimal_seconds defaultConfig (fun _ _ => true) 0 181 = 60 ∧
    decide ((241 / 2 : ℚ) = 60) = false := by
  refine ⟨findOptTrace_eval, ?_, ?_⟩
  · show findOptLoop defaultConfig (fun _ _ => true) 0 12 60 181 60 = 60
    rw [← findOptLoopT_fst]
    exact congrArg Prod.fst findOptTrace_eval
  · simp only [decide_eq_false_iff_not]
    norm_num

/-- C3 (amended): the binary search issues at most
`BINARY_SEARCH_MAX_ITERATIONS` probes, issues none once the bracket is
within `BINARY_SEARCH_PRECISION_SECONDS`, never returns a duration that any
probe observed truncated, and returns the last accepted (non-truncated)
probe — or `MIN_WINDOW_SECONDS`, possibly untested, when no probe was
accepted. -/
theorem find_optimal_probe_properties (cfg : Config) (orc : TruncOracle)
    (startT maxSeconds : ℚ)
    (hP : 0 ≤ cfg.BINARY_SEARCH_PRECISION_SECONDS) :
    (findOptTrace cfg orc startT maxSeconds).1 =
        find_optimal_seconds cfg orc startT maxSeconds ∧
    (findOptTrace cfg orc startT maxSeconds).2.length ≤
        cfg.BINARY_SEARCH_MAX_ITERATIONS ∧
    (findOptTrace cfg orc startT maxSeconds).1 =
        (acceptedOf (findOptTrace cfg orc startT maxSeconds).2).getLastD
          cfg.MIN_WINDOW_SECONDS ∧
    (∀ d, (d, true) ∈ (findOptTrace cfg orc startT maxSeconds).2 →
        d ≠ (findOptTrace cfg orc startT maxSeconds).1) ∧
    (maxSeconds - cfg.MIN_WINDOW_SECONDS ≤
        cfg.BINARY_SEARCH_PRECISION_SECONDS →
      (findOptTrace cfg orc startT maxSeconds).2 = []) := by
  refine ⟨findOptLoopT_fst cfg orc startT _ _ _ _,
    findOptLoopT_length cfg orc startT _ _ _ _,
    findOptLoopT_last_accepted cfg orc startT _ _ _ _,
    findOptLoopT_truncated_ne cfg orc startT hP _ _ _ _ (le_refl _), ?_⟩
  intro hclose
  show (findOptLoopT cfg orc startT cfg.BINARY_SEARCH_MAX_ITERATIONS
    cfg.MIN_WINDOW_SECONDS maxSeconds cfg.MIN_WINDOW_SECONDS).2 = []
  rw [findOptLoopT_closed cfg orc startT _ _ _ _ hclose]

/-- C3 witness: the probe-properties theorem applied to the source
configuration with a never-truncating oracle. -/
theorem find_optimal_probe_properties_witness :
    (findOptTrace defaultConfig (fun _ _ => false) 0 3600).1 =
      find_optimal_seconds defaultConfig (fun _ _ => false) 0 3600 :=
  (find_optimal_probe_properties defaultConfig (fun _ _ => false) 0 3600
    (by decide)).1

/-- C4 counterexample: the filters built for the adjacent windows
`[0, 60]` and `[60, 120]` of a plan both match a record stamped exactly 60,
because `build_api_filter` emits the inclusive bounds `datetime_geq` and
`datetime_leq` — the predicates are not disjoint, so a boundary record can
be returned by both windows' queries. -/
theorem adjacent_window_filters_overlap_cex :
    filterMatchesTime (build_api_filter defaultConfig 0 60) 60 ∧
    filterMatchesTime (build_api_filter defaultConfig 60 120) 60 := by
  decide

/-- C4 (amended): the datetime predicates of two adjacent windows of a plan
are not disjoint; they overlap in exactly the shared boundary timestamp, so
a record stamped at the boundary can be returned by both queries (and only
such a record can). -/
theorem adjacent_window_filters_meet_at_boundary (cfg : Config)
    (a b c t : ℚ) (hab : a ≤ b) (hbc : b ≤ c) :
    (filterMatchesTime (build_api_filter cfg a b) t ∧
      filterMatchesTime (build_api_filter cfg b c) t) ↔ t = b := by
  simp only [filterMatchesTime, build_api_filter]
  constructor
  · rintro ⟨⟨_, h1⟩, h2, _⟩
    exact le_antisymm h1 h2
  · rintro rfl
    exact ⟨⟨hab, le_refl _⟩, le_refl _, hbc⟩

/-- C4 witness: the boundary characterisation applied to the adjacent
windows `[0, 60]` and `[60, 120]` at timestamp 60. -/
theorem adjacent_window_filters_meet_at_boundary_witness :
    (filterMatchesTime (build_api_filter defaultConfig 0 60) 60 ∧
      filterMatchesTime (build_api_filter defaultConfig 60 120) 60) ↔
      (60 : ℚ) = 60 :=
  adjacent_window_filters_meet_at_boundary defaultConfig 0 60 120 60
    (by norm_num) (by norm_num)

/-- C5 counterexample: for globalStart 1800 (00:30) and globalEnd 3600, the
splitter floors the start and returns the single base start 0, whose base
interval `[0, 3600)` is not a partition of `[1800, 3600)`: the timestamp 900
lies in the produced interval but before the global start. -/
theorem split_covers_global_range_cex :
    split_time_range_by_hour 3 1800 3600 = some [0] ∧
    chainB 1800 3600
      ([(0 : ℚ)].map fun r => (r, min (r + 3600) 3600)) = false ∧
    ((0 : ℚ) ≤ 900 ∧ (900 : ℚ) < min ((0 : ℚ) + 3600) 3600 ∧
      decide ((1800 : ℚ) ≤ 900) = false) := by
  refine ⟨split_eval, ?_, by norm_num, ?_, by norm_num⟩
  · have h0 : decide ((0 : ℚ) = 1800) = false := by
      simp only [decide_eq_false_iff_not]
      norm_num
    simp only [List.map_cons, List.map_nil, chainB, h0, Bool.false_and]
  · have hmin : min ((0 : ℚ) + 3600) 3600 = 3600 := by norm_num
    rw [hmin]
    norm_num

/-- C5 (amended): the splitter produces contiguous hour-aligned base
intervals whose union is exactly `[hourFloor globalStart, globalEnd)` — the
global start floored to its hour, which precedes `globalStart` whenever the
start is not hour-aligned — with the last interval clipped to
`globalEnd`. -/
theorem split_partitions_floored_range (fuel : Nat) (startT endT : ℚ)
    (rs : List ℚ) (hlt : startT < endT)
    (h : split_time_range_by_hour fuel startT endT = some rs) :
    hourFloor startT ≤ startT ∧
    chainB (hourFloor startT) endT
      (rs.map fun r => (r, min (r + 3600) endT)) = true ∧
    ∀ r ∈ rs, ∃ k : ℤ, r = 3600 * (k : ℚ) := by
  refine ⟨hourFloor_le startT, ?_, ?_⟩
  · exact splitLoop_chain endT fuel (hourFloor startT) rs
      (le_trans (hourFloor_le startT) hlt.le) h
  · exact splitLoop_aligned endT fuel (hourFloor startT) rs
      ⟨⌊startT / 3600⌋, rfl⟩ h

/-- C5 witness: the floored-partition theorem applied to globalStart 1800
and globalEnd 3600. -/
theorem split_partitions_floored_range_witness :
    hourFloor 1800 ≤ 1800 ∧
    chainB (hourFloor 1800) 3600
      ([(0 : ℚ)].map fun r => (r, min (r + 3600) 3600)) = true ∧
    ∀ r ∈ [(0 : ℚ)], ∃ k : ℤ, r = 3600 * (k : ℚ) :=
  split_partitions_floored_range 3 1800 3600 [0] (by norm_num) split_eval

/-- C6 counterexample: two configurations whose `FILTER_COUNTRIES` lists are
permutations of each other (`["CN", "HK"]` versus `["HK", "CN"]`) produce
different cache keys for the same hour bucket — the source joins the list
unsorted, so signature generation is not order-independent. -/
theorem cache_key_order_dependent_cex :
    cfgCountriesA.FILTER_COUNTRIES.Perm cfgCountriesB.FILTER_COUNTRIES ∧
    decide (cache_key cfgCountriesA "20250620_09" =
      cache_key cfgCountriesB "20250620_09") = false := by
  decide

/-- C6 (amended): cache-key generation is pure — two configurations that
agree on the inputs the key reads (`TARGET_RULE_ID`,
`ENABLE_COUNTRY_FILTER`, and the `FILTER_COUNTRIES` list in the same order)
produce the same key for the same bucket — but it is order-dependent:
a permuted country list may change the key (see the counterexample). -/
theorem cache_key_congr (cfg1 cfg2 : Config) (hourKey : String)
    (h1 : cfg1.TARGET_RULE_ID = cfg2.TARGET_RULE_ID)
    (h2 : cfg1.ENABLE_COUNTRY_FILTER = cfg2.ENABLE_COUNTRY_FILTER)
    (h3 : cfg1.FILTER_COUNTRIES = cfg2.FILTER_COUNTRIES) :
    cache_key cfg1 hourKey = cache_key cfg2 hourKey := by
  simp [cache_key, filter_key_parts, h1, h2, h3]

/-- C6 witness: two configurations differing only in fields the key does not
read produce the same key. -/
theorem cache_key_congr_witness :
    cache_key cfgCountriesA "20250620_09" =
      cache_key cfgCountriesC "20250620_09" :=
  cache_key_congr cfgCountriesA cfgCountriesC "20250620_09" rfl rfl rfl

/-- C7 counterexample: a run whose three attempts all fail transiently and a
run whose third attempt succeeds with a confirmed-empty window return the
same result `([], 0, False)` and the same request count (the only statistic
the query client touches; `failed_hours` is not updated on this path) — the
exhausted-retry failure is not surfaced in the run statistics, so callers
cannot distinguish it from a confirmed empty window. -/
theorem exhausted_retries_indistinguishable_cex :
    runAttempts (ε := Nat) defaultConfig
        [AttemptOutcome.timeout, AttemptOutcome.timeout,
          AttemptOutcome.timeout] =
      runAttempts (ε := Nat) defaultConfig
        [AttemptOutcome.timeout, AttemptOutcome.timeout,
          AttemptOutcome.success []] ∧
    ([AttemptOutcome.timeout, AttemptOutcome.timeout,
        (AttemptOutcome.timeout : AttemptOutcome Nat)].all isTransient)
      = true ∧
    isSuccess (AttemptOutcome.success ([] : List Nat)) = true := by
  decide

/-- C7 (amended): when all configured retry attempts fail transiently the
query client returns `([], 0, False)` without raising, after issuing (and
counting in `total_requests`) one request per attempt; no failure statistic
is recorded, so the exhausted-retry empty result is indistinguishable from a
confirmed empty window (see the counterexample). -/
theorem exhausted_retries_empty_result (ε : Type) (cfg : Config)
    (env : Nat → AttemptOutcome ε)
    (h : ∀ i < cfg.REQUEST_RETRY_COUNT, isTransient (env i) = true) :
    get_firewall_events_for_window cfg env =
      (⟨[], 0, false⟩, cfg.REQUEST_RETRY_COUNT) := by
  have hall : ∀ o ∈ (List.range cfg.REQUEST_RETRY_COUNT).map env,
      isTransient o = true := by
    intro o ho
    rcases List.mem_map.mp ho with ⟨i, hi, rfl⟩
    exact h i (List.mem_range.mp hi)
  show runAttempts cfg ((List.range cfg.REQUEST_RETRY_COUNT).map env) = _
  rw [runAttempts_transient ε cfg _ hall, List.length_map, List.length_range]

/-- C7 witness: the exhausted-retry theorem applied to the source
configuration with every attempt timing out. -/
theorem exhausted_retries_empty_result_witness :
    get_firewall_events_for_window defaultConfig
        (fun _ => (AttemptOutcome.timeout : AttemptOutcome Nat)) =
      (⟨[], 0, false⟩, defaultConfig.REQUEST_RETRY_COUNT) :=
  exhausted_retries_empty_result Nat defaultConfig _ (fun _ _ => rfl)

/-- C8: if processing exactly one base interval raises, the exception is
absorbed by the per-interval worker, the failed-intervals counter ends at
exactly one, the failing interval contributes an empty batch, and the
collected records are exactly the concatenation of every other interval's
events, unchanged and in order. -/
theorem failure_isolation (ε : Type) (pre post : List (List ε)) :
    collect_serial
        (pre.map Except.ok ++ Except.error () :: post.map Except.ok) =
      (pre.flatten ++ post.flatten, 1) := by
  show List.foldl _ ([], 0) _ = _
  rw [List.foldl_append, collect_foldl_ok ε pre ([], 0), List.foldl_cons]
  show List.foldl _ ((([] : List ε) ++ pre.flatten) ++ [], 0 + 1)
    (post.map Except.ok) = _
  rw [collect_foldl_ok ε post _]
  simp

/-- C8 witness: the isolation theorem applied to a run of three base
intervals whose middle interval raises. -/
theorem failure_isolation_witness :
    collect_serial
        ([[1, 2]].map Except.ok ++
          Except.error () :: [[3]].map Except.ok) =
      (([([1, 2] : List Nat)]).flatten ++ [[3]].flatten, 1) :=
  failure_isolation Nat [[1, 2]] [[3]]

/-- C9: for every truncation oracle and every base interval, the
window-covering loop terminates: fuel linear in the interval length
suffices whenever `MIN_WINDOW_SECONDS` is positive, and every constructed
window advances the cursor by at least the minimum of `MIN_WINDOW_SECONDS`
and the remaining time (a strictly positive amount). -/
theorem cover_loop_terminates (cfg : Config) (orc : TruncOracle)
    (hourEnd cur : ℚ) (n : Nat)
    (hmin : 0 < cfg.MIN_WINDOW_SECONDS)
    (hP : 0 ≤ cfg.BINARY_SEARCH_PRECISION_SECONDS)
    (hn : hourEnd - cur ≤ cfg.MIN_WINDOW_SECONDS * n) :
    ∃ ws, coverLoop cfg orc hourEnd (n + 1) cur = some ws ∧
      ∀ w ∈ ws,
        min cfg.MIN_WINDOW_SECONDS (hourEnd - w.start) ≤ w.stop - w.start :=
  coverLoop_total cfg orc hourEnd hmin hP n cur hn

/-- C9 witness: the termination theorem applied to the source configuration,
an oracle for which every probe truncates (the documented worst case), and
the interval `[0, 120)`. -/
theorem cover_loop_terminates_witness :
    ∃ ws, coverLoop defaultConfig (fun _ _ => true) 120 (2 + 1) 0 = some ws ∧
      ∀ w ∈ ws,
        min defaultConfig.MIN_WINDOW_SECONDS (120 - w.start) ≤
          w.stop - w.start :=
  cover_loop_terminates defaultConfig (fun _ _ => true) 120 0 2
    (by decide) (by decide) (by norm_num [defaultConfig])

/-- C10: every value the query client returns reports a count equal to the
length of its record list, and every run in which no attempt delivers a data
payload — exhausted retries, an unsupported-filter API error, or an empty
API response on every attempt — returns exactly `([], 0, False)`. -/
theorem query_result_count_consistent (ε : Type) (cfg : Config)
    (env : Nat → AttemptOutcome ε) :
    ((get_firewall_events_for_window cfg env).1).count =
        ((get_firewall_events_for_window cfg env).1).records.length ∧
    ((∀ i < cfg.REQUEST_RETRY_COUNT, isSuccess (env i) = false) →
      (get_firewall_events_for_window cfg env).1 = ⟨[], 0, false⟩) := by
  constructor
  · exact runAttempts_count ε cfg _
  · intro h
    refine runAttempts_no_success ε cfg _ ?_
    intro o ho
    rcases List.mem_map.mp ho with ⟨i, hi, rfl⟩
    exact h i (List.mem_range.mp hi)

/-- C10 witness: the count-consistency theorem's failure-path part applied
to a run whose attempts all time out. -/
theorem query_result_count_consistent_witness :
    (get_firewall_events_for_window defaultConfig
        (fun _ => (AttemptOutcome.timeout : AttemptOutcome Nat))).1 =
      ⟨[], 0, false⟩ :=
  (query_result_count_consistent Nat defaultConfig _).2 (fun _ _ => rfl)

end CFWAF
